import Mathlib

/-!
Verification of the identity-resolution / relevance-classification core of
`mailer.py` (arxiv-mailer).  Strings are modelled as `List Char`; the Python
regular expressions of the source are embedded as executable Lean functions
that mirror the CPython engine's leftmost, greedy, backtracking semantics on
the character set the program exercises.
-/

namespace Mailer

/-- Characters matched by Python's regex class `\w`, modelled on the
character set this development exercises: ASCII alphanumerics, underscore and
the accented Latin letters of the specification's examples.  Combining marks
(such as U+0301) are not word characters, as in Python. -/
def isWordChar (c : Char) : Bool :=
  c.isAlphanum || c = '_' || c = 'É' || c = 'é'

/-- Whitespace characters recognized by Python's `str.strip`, `str.split` and
the regex class `\s` (ASCII range). -/
def isPySpace (c : Char) : Bool :=
  c = ' ' || c = '\t' || c = '\n' || c = '\r' || c = '\x0b' || c = '\x0c'

/-- Python `str.strip()`: drop leading and trailing whitespace. -/
def pyStrip (s : List Char) : List Char :=
  (s.dropWhile isPySpace).rdropWhile isPySpace

/-- Python's substring test `needle in hay`. -/
def pyIn (needle hay : List Char) : Bool :=
  (List.range (hay.length + 1)).any fun i => needle.isPrefixOf (hay.drop i)

/-- `re.sub(r'[^\w]', ' ', text)`: replace every non-word character by a
space. -/
def subNonWord (s : List Char) : List Char :=
  s.map fun c => if isWordChar c then c else ' '

/-- Python `str.casefold()`, modelled characterwise on the set exercised:
ASCII uppercase folds to lowercase and 'É' folds to 'é'; every other
character of interest is fixed. -/
def caseFoldChar (c : Char) : List Char :=
  if c = 'É' then ['é'] else if c.isUpper then [c.toLower] else [c]

/-- `unicodedata.normalize("NFKD", ·)`, modelled characterwise on the set
exercised: 'é' decomposes to 'e' followed by the combining acute accent
U+0301; ASCII characters are unchanged. -/
def nfkdChar (c : Char) : List Char :=
  if c = 'é' then ['e', '́'] else if c = 'É' then ['E', '́'] else [c]

/-- `normalize_caseless` (mailer.py lines 65-70): replace non-word characters
by spaces, then casefold, then NFKD-decompose, then strip. -/
def normalize_caseless (text : List Char) : List Char :=
  pyStrip (((subNonWord text).flatMap caseFoldChar).flatMap nfkdChar)

/-- One pass of `ALL_INITIALS_RE.sub('', ·)` with
`ALL_INITIALS_RE = re.compile(r'\b\w\.?')` (mailer.py line 122): scanning
left to right, wherever a word character stands at a word boundary it is
deleted together with an immediately following period, non-overlapping.
`prevW` records whether the character just before the current position in
the original string was a word character (false at the start of the
string). -/
def subInitials : Bool → List Char → List Char
  | _, [] => []
  | prevW, [c] => if !prevW && isWordChar c then [] else [c]
  | prevW, c :: d :: t =>
    if !prevW && isWordChar c then
      if d = '.' then subInitials false t
      else subInitials true (d :: t)
    else c :: subInitials (isWordChar c) (d :: t)

/-- Python `str.split()` with no separator: split on whitespace runs,
discarding empty pieces. -/
def pySplit (s : List Char) : List (List Char) :=
  (s.splitOnP isPySpace).filter (· ≠ [])

/-- `strip_initials` (mailer.py lines 123-124):
`' '.join(ALL_INITIALS_RE.sub('', names).split())`. -/
def strip_initials (names : List Char) : List Char :=
  List.intercalate [' '] (pySplit (subInitials false names))

/-- `INITIAL_RE.match`, with `INITIAL_RE = re.compile(r'^\w(\.|\s|$)')`
(mailer.py line 114): a single word character followed by a period,
whitespace, or the end of the string. -/
def initial_match (s : List Char) : Bool :=
  match s with
  | [] => false
  | c :: t =>
    isWordChar c &&
      (match t with
       | [] => true
       | d :: _ => d = '.' || isPySpace d)

/-- Length of the maximal prefix matchable by the regex `.*` (any character
except newline). -/
def dotRunLen : List Char → Nat
  | [] => 0
  | c :: t => if c = '\n' then 0 else dotRunLen t + 1

/-- A delimiter of `NAME_RE`'s character class `[\. ]`. -/
def isDelim (c : Char) : Bool := c = '.' || c = ' '

/-- Length of the maximal prefix consisting of `[\. ]` delimiters. -/
def delimRunLen : List Char → Nat
  | [] => 0
  | c :: t => if isDelim c then delimRunLen t + 1 else 0

/-- The candidate `(j, k)` consumption pairs for one iteration of `NAME_RE`'s
repeated group `(?:(?P<initial>\w).*)[\. ]+` after its leading word
character: `.*` consumes `j` characters and `[\. ]+` consumes `k ≥ 1`
delimiters, enumerated in the engine's backtracking order (both greedy, so
longest first). -/
def candList (t : List Char) : List (Nat × Nat) :=
  (List.range (dotRunLen t + 1)).reverse.flatMap fun j =>
    (List.range (delimRunLen (t.drop j))).reverse.map fun i => (j, i + 1)

/-- The tail `(?P<last>\w.*)$` of `NAME_RE`, anchored at the end of the
string (Python's `$` also matches just before a single trailing newline);
returns the text captured by the `last` group. -/
def lastMatch : List Char → Option (List Char)
  | [] => none
  | c :: t =>
    if isWordChar c then
      if t.all (· != '\n') then some (c :: t)
      else if t.getLast? == some '\n' && t.dropLast.all (· != '\n') then
        some (c :: t.dropLast)
      else none
    else none

/-- Backtracking matcher for
`NAME_RE = re.compile(r'^(?P<first>(?:(?P<initial>\w).*)[\. ]+)+(?P<last>\w.*)$')`
(mailer.py line 108), mirroring the CPython engine's exploration order:
within one iteration of the repeated group `.*` and `[\. ]+` are greedy, and
the outer `+` prefers a further iteration over moving on to the `last`
group.  Returns the `(first, initial, last)` captures; `first` and `initial`
come from the final iteration of the repeated group, as Python reports
captures of repeated groups.  Any `fuel` at least the length of the input
realizes the regex's behaviour, since every iteration consumes at least two
characters. -/
def nameMatchAux : Nat → List Char → Option (List Char × Char × List Char)
  | 0, _ => none
  | _ + 1, [] => none
  | fuel + 1, c :: t =>
    if isWordChar c then
      (candList t).findSome? fun jk =>
        let rest := t.drop (jk.1 + jk.2)
        match nameMatchAux fuel rest with
        | some r => some r
        | none => (lastMatch rest).map fun lc => (c :: t.take (jk.1 + jk.2), c, lc)
    else none

/-- `NAME_RE.match` with its three captures, as consumed by
`approximate_name_lookup`. -/
def name_match (s : List Char) : Option (List Char × Char × List Char) :=
  nameMatchAux s.length s

/-- Score one roster candidate, mirroring the branch chain of
`approximate_name_lookup` (mailer.py lines 140-165).  The result `none`
models the IndexError raised by the expression `person_first[0]` in the
fifth branch when the candidate's first-names component is the empty
string; `first_initial[0]` is the single captured initial character. -/
def score_candidate (first_names : List Char) (first_initial : Char)
    (last_name person_last person_first : List Char) : Option Nat :=
  if person_last = last_name then
    if person_first = first_names then some 2
    else if person_first.isPrefixOf first_names then some 2
    else if first_names != [first_initial] && pyIn first_names person_first then
      some (if person_first.isPrefixOf (strip_initials first_names) then 2 else 0)
    else if pyIn person_first first_names then
      some (if person_first.isPrefixOf (strip_initials first_names) then 2 else 0)
    else
      match person_first with
      | [] => none
      | d :: _ =>
        if d = first_initial then
          some (if initial_match first_names then 1 else 0)
        else some 0
  else some 0

/-- The roster scan of `approximate_name_lookup` (lines 140-168): return the
first candidate whose score is nonzero, else `(no key, 0)`.  The outer
`none` propagates the IndexError modelled in `score_candidate`. -/
def lookup_scan (first_names : List Char) (first_initial : Char)
    (last_name : List Char) :
    List (List Char × List Char) → Option (Option (List Char × List Char) × Nat)
  | [] => some (none, 0)
  | (pl, pf) :: rest =>
    match score_candidate first_names first_initial last_name pl pf with
    | none => none
    | some 0 => lookup_scan first_names first_initial last_name rest
    | some s => some (some (pl, pf), s)

/-- `approximate_name_lookup` (mailer.py lines 128-168).  The roster argument
is the list of the people dictionary's keys in insertion order; the outer
`none` models an uncaught IndexError, and `some (none, 0)` is the no-match
result (also produced when `NAME_RE` fails to match the normalized name). -/
def approximate_name_lookup (name : List Char)
    (people : List (List Char × List Char)) :
    Option (Option (List Char × List Char) × Nat) :=
  match name_match (normalize_caseless name) with
  | none => some (none, 0)
  | some (first, ini, last) =>
    lookup_scan (pyStrip first) ini (pyStrip last) people

/-- The roster of `test_approximate_name_lookup` (mailer.py lines 171-176),
as the dictionary's keys in insertion order. -/
def testPeople : List (List Char × List Char) :=
  [("dave".toList, "a. bob c.".toList),
   ("ferris".toList, "edgar".toList),
   ("hausschuh".toList, "georgina".toList),
   ("rodrigo".toList, "marco navarro".toList)]

/-- The five alternatives of
`UOFA_RE = re.compile(r'(university of arizona|steward observatory|arizona\.edu|lbto\.org|gmto\.org)', flags=re.IGNORECASE)`
(mailer.py line 182), in alternation order. -/
def uofaPatterns : List (List Char) :=
  ["university of arizona".toList, "steward observatory".toList,
   "arizona.edu".toList, "lbto.org".toList, "gmto.org".toList]

/-- ASCII lowercasing, the model of `re.IGNORECASE` matching against the
all-lowercase ASCII alternatives of `UOFA_RE`. -/
def lowerChar (c : Char) : Char := if c.isUpper then c.toLower else c

/-- Count the non-overlapping matches of `UOFA_RE` in an already-lowercased
string, scanning left to right as `findall` does; at each position the
alternatives are tried in order and the first that fits is consumed.  The
fuel bounds the recursion; any fuel at least the length of the input
realizes the scan, since every step consumes at least one character. -/
def scanCountAux : Nat → List Char → Nat
  | 0, _ => 0
  | _ + 1, [] => 0
  | fuel + 1, c :: t =>
    match uofaPatterns.findSome? fun p =>
        if p.isPrefixOf (c :: t) then some p.length else none with
    | some len => 1 + scanCountAux fuel (t.drop (len - 1))
    | none => scanCountAux fuel t

/-- The left-to-right scan of `findall` over a whole string. -/
def scanCount (s : List Char) : Nat :=
  scanCountAux s.length s

/-- `len(UOFA_RE.findall(line))`: the number of non-overlapping
case-insensitive keyword matches in one line. -/
def countMatches (line : List Char) : Nat :=
  scanCount (line.map lowerChar)

/-- Decidable equality for `Except`, to state and decide facts about scan
outcomes. -/
instance {ε α : Type} [DecidableEq ε] [DecidableEq α] :
    DecidableEq (Except ε α) := fun a b =>
  match a, b with
  | Except.error e, Except.error f =>
    if h : e = f then isTrue (by rw [h]) else
      isFalse fun hc => h (Except.error.inj hc)
  | Except.error _, Except.ok _ => isFalse fun hc => Except.noConfusion hc
  | Except.ok _, Except.error _ => isFalse fun hc => Except.noConfusion hc
  | Except.ok x, Except.ok y =>
    if h : x = y then isTrue (by rw [h]) else
      isFalse fun hc => h (Except.ok.inj hc)

/-- `evidence_in_texfile` (mailer.py lines 184-192).  The file handle is the
list of its raw lines; `Except.error ()` for a line models a UTF-8 decode
failure, and a successfully decoded line is its list of characters (each
line produced by iterating the handle is nonempty, but an empty line would
make `line[0]` raise, which the model reports as `Except.error ()` too).
Lines whose first character is `%` are skipped; the others contribute their
keyword-match counts.  A raised exception aborts the whole scan, discarding
the partial count of this file. -/
def evidence_in_texfile : List (Except Unit (List Char)) → Except Unit Nat
  | [] => Except.ok 0
  | Except.error _ :: _ => Except.error ()
  | Except.ok [] :: _ => Except.error ()
  | Except.ok (c :: t) :: rest =>
    match evidence_in_texfile rest with
    | Except.error _ => Except.error ()
    | Except.ok n => Except.ok ((if c = '%' then 0 else countMatches (c :: t)) + n)

/-- One member of the retrieved source archive: its name and its raw lines
as presented to `evidence_in_texfile`. -/
structure ArchiveMember where
  name : List Char
  lines : List (Except Unit (List Char))

/-- Case-insensitive ASCII lowering of a member name,
Python's `m.name.lower()`. -/
def pyLower (s : List Char) : List Char := s.map lowerChar

/-- The member filter of `gather_affiliation_evidence`:
`m.name.lower().endswith('.tex')`. -/
def isTexName (m : ArchiveMember) : Bool :=
  ".tex".toList.isSuffixOf (pyLower m.name)

/-- The member loop of `gather_affiliation_evidence` (lines 205-208):
accumulate evidence file by file; the first exception aborts the loop with
the count accumulated so far and `gather_success` still false. -/
def gatherLoop : List ArchiveMember → Nat → Nat × Bool
  | [], acc => (acc, true)
  | m :: rest, acc =>
    match evidence_in_texfile m.lines with
    | Except.error _ => (acc, false)
    | Except.ok n => gatherLoop rest (acc + n)

/-- `gather_affiliation_evidence` (mailer.py lines 195-212).  The outside
world is the `fetch` argument: `Except.error ()` when the HTTP retrieval or
`tarfile.open` raises, otherwise the list of archive members.  Every
exception is swallowed by the `except` clause, so the function always
returns an `(evidence, gather_success)` pair. -/
def gather_affiliation_evidence (fetch : Except Unit (List ArchiveMember)) :
    Nat × Bool :=
  match fetch with
  | Except.error _ => (0, false)
  | Except.ok members => gatherLoop (members.filter isTexName) 0

/-- The outcome of `unpack_feed_entry` for one document: whether the entry
was returned (accepted) or the function returned `None` (rejected), and
whether `gather_affiliation_evidence` was called on the way. -/
structure ClassifyOutcome where
  accepted : Bool
  gathererInvoked : Bool
deriving DecidableEq, Repr

/-- The accept/reject decision of `unpack_feed_entry` (mailer.py lines
215-247) as a function of the module flag `DEMO_MODE`, the per-document
total score `our_people_score`, and the evidence gatherer (invoked at most
once, on the document's identifier). -/
def unpack_feed_entry (demo_mode : Bool) (our_people_score : Nat)
    (gather : Unit → Nat × Bool) : ClassifyOutcome :=
  if our_people_score < 1 ∧ demo_mode = false then ⟨false, false⟩
  else if demo_mode = false then
    let r := gather ()
    if r.2 = true ∧ r.1 = 0 then ⟨false, true⟩
    else if r.2 = false ∧ our_people_score < 2 then ⟨false, true⟩
    else ⟨true, true⟩
  else ⟨true, false⟩

/-- A person key: (normalized last name, normalized first names), the key
type of the people dictionary. -/
abbrev PersonKey := List Char × List Char

/-- Python's `<` on strings: lexicographic comparison by code point. -/
def listLt : List Char → List Char → Bool
  | [], [] => false
  | [], _ :: _ => true
  | _ :: _, [] => false
  | a :: s, b :: t => if a = b then listLt s t else decide (a < b)

/-- Python's `<=` on `PersonKey` tuples as `list.sort()` orders them:
lexicographic, last name first, then first names. -/
def keyLe (x y : PersonKey) : Bool :=
  if x.1 = y.1 then decide (x.2 = y.2) || listLt x.2 y.2 else listLt x.1 y.1

/-- The comparator `list.sort()` effectively applies to the collected
`(key, record)` pairs: Python's tuple comparison reaches the records only
when the keys are equal, and the records of equal keys are both
`people[key]`, hence equal, so the order is decided by the keys alone. -/
def pairLe {β : Type} (a b : PersonKey × β) : Bool := keyLe a.1 b.1

/-- One author entry of an unpacked post: the raw author name with the
(matched key, score) pair produced by `approximate_name_lookup`. -/
abbrev AuthorEntry := List Char × (Option PersonKey × Nat)

/-- `people[key]` on the ordered dictionary. -/
def dictGet {β : Type} (people : List (PersonKey × β)) (k : PersonKey) :
    Option β :=
  (people.find? fun p => p.1 == k).map Prod.snd

/-- The matched keys one post contributes to the author collection: those
of its author entries whose match carries a present key
(`author[1][0] is not None`), in author order. -/
def presentKeys (authors : List AuthorEntry) : List PersonKey :=
  authors.filterMap fun a => a.2.1

/-- The `(key, people[key])` pairs appended by the collection loop of
`get_matching_posts` (mailer.py lines 258-265), in processing order over
the accepted posts and their authors; `none` models the KeyError on an
absent key (unreachable in the program, whose matched keys come from
lookups over the same dictionary). -/
def all_authors_unsorted {β : Type} (people : List (PersonKey × β))
    (posts : List (List AuthorEntry)) : Option (List (PersonKey × β)) :=
  (posts.flatMap presentKeys).mapM fun k => (dictGet people k).map fun v => (k, v)

/-- The tail of `get_matching_posts` (mailer.py lines 266-270): sort the
collected pairs and return the record values in sorted order. -/
def get_all_authors {β : Type} (people : List (PersonKey × β))
    (posts : List (List AuthorEntry)) : Option (List β) :=
  (all_authors_unsorted people posts).map fun l =>
    (l.mergeSort pairLe).map Prod.snd

/-- C1: With the demo switch off, a document whose total author score is
below 1 is rejected with the evidence gatherer never invoked; otherwise the
gatherer is invoked and the document is rejected exactly when evidence was
gathered with count 0, or evidence was not gathered and the total score is
below 2 — accepted in every remaining case. -/
theorem C1_classification_decision (score count : Nat) (gathered : Bool)
    (g : Unit → Nat × Bool) :
    (score < 1 → unpack_feed_entry false score g = ⟨false, false⟩) ∧
    (1 ≤ score →
      (unpack_feed_entry false score (fun _ => (count, gathered))).gathererInvoked
          = true ∧
      ((unpack_feed_entry false score (fun _ => (count, gathered))).accepted
          = false ↔
        (gathered = true ∧ count = 0) ∨ (gathered = false ∧ score < 2))) := by
  constructor
  · intro h
    simp [unpack_feed_entry, h]
  · intro h
    have hs : ¬(score < 1) := by omega
    by_cases h2 : gathered = true ∧ count = 0
    · simp [unpack_feed_entry, hs, h2]
    · by_cases h3 : gathered = false ∧ score < 2
      · simp [unpack_feed_entry, hs, h2, h3]
      · simp [unpack_feed_entry, hs, h2, h3]

/-- Witness for C1 at a concrete input: total score 0 is rejected without
invoking the gatherer. -/
theorem C1_classification_decision_witness :
    unpack_feed_entry false 0 (fun _ => (0, true)) = ⟨false, false⟩ :=
  (C1_classification_decision 0 0 true (fun _ => (0, true))).1 (by decide)

/-- C3 counterexample: in demo mode a document with total score 0 is
accepted, so the demo-mode decision does not agree with the predicate
`totalScore >= 1`. -/
theorem C3_counterexample :
    ¬(((unpack_feed_entry true 0 (fun _ => (0, false))).accepted = true) ↔
      1 ≤ 0) := by decide

/-- C3 (amended): in demo mode classification bypasses the evidence stage
entirely — the gatherer is never invoked — and accepts every document,
whatever its total score. -/
theorem C3_demo_mode_accepts_all (score : Nat) (g : Unit → Nat × Bool) :
    unpack_feed_entry true score g = ⟨true, false⟩ := by
  simp [unpack_feed_entry]

/-- C2: evaluation of the embedded code at the failing input of the
program's own test `test_approximate_name_lookup`: the lookup of
`"bob dave"` against the four-entry roster returns no match with score 0
(the test asserts `(('dave', 'a. bob c.'), 2)`).  Rule 3 fails because the
code tests `strip_initials(first_names).startswith(person_first)` — with
the query and candidate roles swapped — and because `strip_initials`
deletes the first letter of every word, mapping `'bob'` to `'ob'`. -/
theorem C2_rule3_eval :
    approximate_name_lookup "bob dave".toList testPeople = some (none, 0) ∧
    strip_initials "bob".toList = "ob".toList := by decide

/-- C4: evaluation of the embedded `strip_initials` at the inputs of the
spec and of the program's own test `test_strip_initials`: both return
`"ong"`, not the asserted `"long"`/`"Long"`, because the regex `\b\w\.?`
also matches the first letter of every longer word. -/
theorem C4_strip_initials_eval :
    strip_initials "j. long".toList = "ong".toList ∧
    strip_initials "J. Long".toList = "ong".toList ∧
    "ong".toList ≠ "long".toList := by decide

/-- C10: archive members whose lowercased name does not end in `.tex` never
contribute to the evidence count: removing such a member from the retrieved
package leaves the result of `gather_affiliation_evidence` unchanged. -/
theorem C10_only_tex_members (pre post : List ArchiveMember)
    (m : ArchiveMember) (h : isTexName m = false) :
    gather_affiliation_evidence (Except.ok (pre ++ m :: post)) =
      gather_affiliation_evidence (Except.ok (pre ++ post)) := by
  simp [gather_affiliation_evidence, List.filter_append, List.filter_cons, h]

/-- Witness for C10 at a concrete input: a non-`.tex` member full of
keywords is ignored. -/
theorem C10_only_tex_members_witness :
    gather_affiliation_evidence (Except.ok
      [ArchiveMember.mk "notes.txt".toList [Except.ok "arizona.edu\n".toList]]) =
      gather_affiliation_evidence (Except.ok []) :=
  C10_only_tex_members [] []
    (ArchiveMember.mk "notes.txt".toList [Except.ok "arizona.edu\n".toList])
    (by decide)

/-- A word character is not a `[\. ]` delimiter. -/
theorem wordChar_not_delim {c : Char} (h : isWordChar c = true) :
    isDelim c = false := by
  unfold isDelim
  rcases eq_or_ne c '.' with rfl | h1
  · exact absurd h (by decide)
  · rcases eq_or_ne c ' ' with rfl | h2
    · exact absurd h (by decide)
    · simp [h1, h2]

/-- A list of word characters has no leading delimiter run. -/
theorem delimRunLen_zero {t : List Char} (h : ∀ c ∈ t, isWordChar c = true) :
    delimRunLen t = 0 := by
  cases t with
  | nil => rfl
  | cons c t => simp [delimRunLen, wordChar_not_delim (h c (by simp))]

/-- Over a delimiter-free tail, the repeated group of `NAME_RE` has no way
to consume its mandatory `[\. ]+`, so there are no candidate splits. -/
theorem candList_nil {t : List Char} (h : ∀ c ∈ t, isWordChar c = true) :
    candList t = [] := by
  unfold candList
  rw [List.flatMap_eq_nil_iff]
  intro j hj
  have hz : delimRunLen (t.drop j) = 0 :=
    delimRunLen_zero fun c hc => h c (List.mem_of_mem_drop hc)
  simp [hz]

/-- `NAME_RE` rejects every string made of word characters only: its
grammar demands at least one `[\. ]` delimiter between a first-name part
and the final token. -/
theorem name_match_all_word {s : List Char}
    (h : ∀ c ∈ s, isWordChar c = true) : name_match s = none := by
  unfold name_match
  cases s with
  | nil => rfl
  | cons c t =>
    have hc : candList t = [] := candList_nil fun d hd => h d (by simp [hd])
    simp [nameMatchAux, hc]

/-- C7 (amended): the parse grammar's minimum requirement is a first-name
token, a `.`/space delimiter, and a trailing word-character token — a
normalized string that is a single word-character token does not parse —
and the scorer recovers a parse failure as the no-match result
`(absent, 0)` instead of raising; `"j long"` shows the two-token form
parsing. -/
theorem C7_parse_amended :
    (∀ s : List Char, (∀ c ∈ s, isWordChar c = true) → name_match s = none) ∧
    (∀ (name : List Char) (people : List (List Char × List Char)),
      name_match (normalize_caseless name) = none →
      approximate_name_lookup name people = some (none, 0)) ∧
    name_match "j long".toList = some ("j ".toList, 'j', "long".toList) := by
  refine ⟨fun s h => name_match_all_word h, fun name people h => ?_, by decide⟩
  unfold approximate_name_lookup
  rw [h]

/-- Witness for C7 (amended) at a concrete input: the unparseable
single-token name `"long"` yields the no-match result. -/
theorem C7_parse_amended_witness :
    approximate_name_lookup "long".toList testPeople = some (none, 0) :=
  C7_parse_amended.2.1 "long".toList testPeople (by decide)

/-- C7 counterexample: `"long"` is normalized (a fixed point of
`normalize_caseless`) and contains a word-character token, yet `NAME_RE`
fails to match it, so the lookup returns no match — refuting "every
normalized string containing at least one word-character token parses
successfully". -/
theorem C7_counterexample :
    normalize_caseless "long".toList = "long".toList ∧
    (∃ c ∈ "long".toList, isWordChar c = true) ∧
    name_match "long".toList = none ∧
    approximate_name_lookup "long".toList testPeople = some (none, 0) := by
  decide

/-- Every branch of `score_candidate` on a candidate with a nonempty
first-names component returns a score, and that score is at most 2. -/
theorem score_candidate_some (fn : List Char) (ini : Char)
    (ln pl pf : List Char) (h : pf ≠ []) :
    ∃ n, score_candidate fn ini ln pl pf = some n ∧ n ≤ 2 := by
  unfold score_candidate
  split
  · split
    · exact ⟨2, rfl, by omega⟩
    · split
      · exact ⟨2, rfl, by omega⟩
      · split
        · exact ⟨_, rfl, by split <;> omega⟩
        · split
          · exact ⟨_, rfl, by split <;> omega⟩
          · cases pf with
            | nil => exact absurd rfl h
            | cons d t =>
              show ∃ n, (if d = ini then
                  some (if initial_match fn = true then 1 else 0)
                else some 0) = some n ∧ n ≤ 2
              by_cases hd : d = ini
              · simp only [if_pos hd]
                exact ⟨_, rfl, by split <;> omega⟩
              · simp only [if_neg hd]
                exact ⟨0, rfl, by omega⟩
  · exact ⟨0, rfl, by omega⟩

/-- The roster scan never raises when every roster entry has a nonempty
first-names component, and its result is well-formed: score at most 2,
matched key absent exactly on score 0, and any matched key taken from the
roster. -/
theorem lookup_scan_safe (fn : List Char) (ini : Char) (ln : List Char) :
    ∀ people : List (List Char × List Char), (∀ p ∈ people, p.2 ≠ []) →
      ∃ r, lookup_scan fn ini ln people = some r ∧ r.2 ≤ 2 ∧
        (r.1 = none ↔ r.2 = 0) ∧ ∀ k, r.1 = some k → k ∈ people
  | [], _ => ⟨(none, 0), rfl, by simp⟩
  | (pl, pf) :: rest, h => by
    obtain ⟨n, hn, hn2⟩ :=
      score_candidate_some fn ini ln pl pf (h (pl, pf) (by simp))
    match n, hn, hn2 with
    | 0, hn, _ =>
      obtain ⟨r, hr, h2, h3, h4⟩ :=
        lookup_scan_safe fn ini ln rest fun p hp => h p (by simp [hp])
      refine ⟨r, ?_, h2, h3, fun k hk => List.mem_cons_of_mem _ (h4 k hk)⟩
      simp [lookup_scan, hn, hr]
    | (m + 1), hn, hn2 =>
      refine ⟨(some (pl, pf), m + 1), ?_, hn2, by simp, ?_⟩
      · simp [lookup_scan, hn]
      · intro k hk
        obtain rfl : (pl, pf) = k := Option.some.inj hk
        exact List.mem_cons_self _ _

/-- C9: for every query string and every roster whose entries all have a
nonempty first-names component, the lookup terminates normally (the
first-character access of rule 5 never faults) and returns a well-formed
result: score in {0, 1, 2}, key absent exactly on score 0, and a nonzero
score carrying a key of the roster. -/
theorem C9_lookup_safety (name : List Char)
    (people : List (List Char × List Char)) (h : ∀ p ∈ people, p.2 ≠ []) :
    ∃ r, approximate_name_lookup name people = some r ∧ r.2 ≤ 2 ∧
      (r.1 = none ↔ r.2 = 0) ∧ ∀ k, r.1 = some k → k ∈ people := by
  unfold approximate_name_lookup
  rcases hm : name_match (normalize_caseless name) with _ | ⟨f, ini, l⟩
  · exact ⟨(none, 0), rfl, by simp⟩
  · exact lookup_scan_safe (pyStrip f) ini (pyStrip l) people h

/-- Witness for C9 at a concrete input: the lookup of `"edgar ferris"`
against the program's test roster. -/
theorem C9_lookup_safety_witness :
    ∃ r, approximate_name_lookup "edgar ferris".toList testPeople = some r ∧
      r.2 ≤ 2 ∧ (r.1 = none ↔ r.2 = 0) ∧ ∀ k, r.1 = some k → k ∈ testPeople :=
  C9_lookup_safety "edgar ferris".toList testPeople (by decide)

/-- When every member scans without an exception, the member loop returns
the accumulated total and success. -/
theorem gatherLoop_ok : ∀ (fs : List ArchiveMember) (acc : Nat),
    (∀ m ∈ fs, evidence_in_texfile m.lines ≠ Except.error ()) →
    gatherLoop fs acc =
      (acc + (fs.map fun m => (evidence_in_texfile m.lines).toOption.getD 0).sum,
        true)
  | [], acc, _ => by simp [gatherLoop]
  | m :: fs, acc, h => by
    rcases hn : evidence_in_texfile m.lines with u | n
    · exact absurd (by rw [hn]) (h m (by simp))
    · have ih := gatherLoop_ok fs (acc + n) fun f hf => h f (by simp [hf])
      simp [gatherLoop, hn, ih, Except.toOption, Nat.add_assoc]

/-- When the scan of one member raises after a run of clean members, the
member loop stops with the count accumulated so far and failure. -/
theorem gatherLoop_err : ∀ (pre : List ArchiveMember) (acc : Nat)
    (m : ArchiveMember) (post : List ArchiveMember),
    (∀ f ∈ pre, evidence_in_texfile f.lines ≠ Except.error ()) →
    evidence_in_texfile m.lines = Except.error () →
    gatherLoop (pre ++ m :: post) acc =
      (acc + (pre.map fun f => (evidence_in_texfile f.lines).toOption.getD 0).sum,
        false)
  | [], acc, m, post, _, hm => by simp [gatherLoop, hm]
  | f :: pre, acc, m, post, h, hm => by
    rcases hn : evidence_in_texfile f.lines with u | n
    · exact absurd (by rw [hn]) (h f (by simp))
    · have ih := gatherLoop_err pre (acc + n) m post
        (fun g hg => h g (by simp [hg])) hm
      simp [gatherLoop, hn, ih, Except.toOption, Nat.add_assoc]

/-- C6 (amended): every failure is swallowed, with `gathered = false`; when
retrieval or opening the archive itself fails the count is 0, but when the
scan fails midway the count reported with `gathered = false` is the total
of the members fully scanned before the failure (not necessarily 0); on
success the count is the total of the per-member keyword counts over the
`.tex` members, and a line whose first character is `%` contributes
nothing. -/
theorem C6_gather_evidence_amended :
    gather_affiliation_evidence (Except.error ()) = (0, false) ∧
    (∀ members : List ArchiveMember,
      (∀ m ∈ members.filter isTexName,
        evidence_in_texfile m.lines ≠ Except.error ()) →
      gather_affiliation_evidence (Except.ok members) =
        (((members.filter isTexName).map fun m =>
          (evidence_in_texfile m.lines).toOption.getD 0).sum, true)) ∧
    (∀ (members : List ArchiveMember) (pre : List ArchiveMember)
      (m : ArchiveMember) (post : List ArchiveMember),
      members.filter isTexName = pre ++ m :: post →
      (∀ f ∈ pre, evidence_in_texfile f.lines ≠ Except.error ()) →
      evidence_in_texfile m.lines = Except.error () →
      gather_affiliation_evidence (Except.ok members) =
        ((pre.map fun f =>
          (evidence_in_texfile f.lines).toOption.getD 0).sum, false)) ∧
    (∀ (s : List Char) (rest : List (Except Unit (List Char))),
      evidence_in_texfile (Except.ok ('%' :: s) :: rest) =
        evidence_in_texfile rest) := by
  refine ⟨rfl, fun members h => ?_, fun members pre m post hsplit hpre hm => ?_,
    fun s rest => ?_⟩
  · show gatherLoop (members.filter isTexName) 0 = _
    rw [gatherLoop_ok _ 0 h]
    simp
  · show gatherLoop (members.filter isTexName) 0 = _
    rw [hsplit, gatherLoop_err pre 0 m post hpre hm]
    simp
  · rcases hr : evidence_in_texfile rest with u | n <;>
      simp [evidence_in_texfile, hr]

/-- Witness for C6 (amended) at a concrete input: a single clean `.tex`
member with one keyword match gathers successfully with count 1. -/
theorem C6_gather_evidence_amended_witness :
    gather_affiliation_evidence (Except.ok
      [ArchiveMember.mk "a.tex".toList [Except.ok "at arizona.edu\n".toList]]) =
      ((([ArchiveMember.mk "a.tex".toList
          [Except.ok "at arizona.edu\n".toList]].filter isTexName).map fun m =>
        (evidence_in_texfile m.lines).toOption.getD 0).sum, true) :=
  C6_gather_evidence_amended.2.1
    [ArchiveMember.mk "a.tex".toList [Except.ok "at arizona.edu\n".toList]]
    (by decide)

/-- C6 counterexample: a package whose first `.tex` member scans cleanly
with one keyword match and whose second member fails to decode makes
`gather_affiliation_evidence` return `(1, false)` — the failure is
swallowed, but the count is not 0 as the claim requires of a failed
gather. -/
theorem C6_counterexample :
    gather_affiliation_evidence (Except.ok
      [ArchiveMember.mk "a.tex".toList [Except.ok "at arizona.edu\n".toList],
       ArchiveMember.mk "b.tex".toList [Except.error ()]]) = (1, false) ∧
    ((1 : Nat), false) ≠ ((0 : Nat), false) := by decide

/-- Lexicographic string comparison is irreflexive. -/
theorem listLt_irrefl : ∀ a : List Char, listLt a a = false
  | [] => rfl
  | c :: t => by simp [listLt, listLt_irrefl t]

/-- Lexicographic string comparison is transitive. -/
theorem listLt_trans : ∀ {a b c : List Char},
    listLt a b = true → listLt b c = true → listLt a c = true
  | [], _ :: _, _ :: _, _, _ => rfl
  | [], [], _, h, _ => by simp [listLt] at h
  | [], _ :: _, [], _, h => by simp [listLt] at h
  | _ :: _, [], _, h, _ => by simp [listLt] at h
  | _ :: _, _ :: _, [], _, h => by simp [listLt] at h
  | x :: xs, y :: ys, z :: zs, h1, h2 => by
    simp only [listLt] at h1 h2 ⊢
    by_cases hxy : x = y
    · subst hxy
      by_cases hyz : x = z
      · subst hyz
        simp only [if_pos rfl] at h1 h2 ⊢
        exact listLt_trans h1 h2
      · simp only [if_pos rfl] at h1
        simpa [hyz] using h2
    · by_cases hyz : y = z
      · subst hyz
        simpa [hxy] using h1
      · rw [if_neg hxy] at h1
        rw [if_neg hyz] at h2
        have hlt : x < z :=
          lt_trans (of_decide_eq_true h1) (of_decide_eq_true h2)
        simp [ne_of_lt hlt, hlt]

/-- Lexicographic string comparison is trichotomous. -/
theorem listLt_total : ∀ a b : List Char,
    listLt a b = true ∨ a = b ∨ listLt b a = true
  | [], [] => Or.inr (Or.inl rfl)
  | [], _ :: _ => Or.inl rfl
  | _ :: _, [] => Or.inr (Or.inr rfl)
  | x :: xs, y :: ys => by
    by_cases hxy : x = y
    · subst hxy
      rcases listLt_total xs ys with h | h | h
      · exact Or.inl (by simp [listLt, h])
      · exact Or.inr (Or.inl (by rw [h]))
      · exact Or.inr (Or.inr (by simp [listLt, h]))
    · rcases lt_trichotomy x y with h | h | h
      · exact Or.inl (by simp [listLt, hxy, h])
      · exact absurd h hxy
      · exact Or.inr (Or.inr (by simp [listLt, Ne.symm hxy, h]))

/-- The tuple order on person keys is transitive. -/
theorem keyLe_trans : ∀ {x y z : PersonKey},
    keyLe x y = true → keyLe y z = true → keyLe x z = true := by
  intro x y z h1 h2
  unfold keyLe at h1 h2 ⊢
  by_cases e1 : x.1 = y.1
  · by_cases e2 : y.1 = z.1
    · rw [if_pos e1] at h1
      rw [if_pos e2] at h2
      rw [if_pos (e1.trans e2)]
      simp only [Bool.or_eq_true] at h1 h2
      rcases h1 with ha | ha <;> rcases h2 with hb | hb
      · have := (of_decide_eq_true ha).trans (of_decide_eq_true hb)
        simp [this]
      · rw [of_decide_eq_true ha]
        simp [hb]
      · rw [← of_decide_eq_true hb]
        simp [ha]
      · simp [listLt_trans ha hb]
    · rw [if_pos e1] at h1
      rw [if_neg e2] at h2
      rw [if_neg (e1 ▸ e2)]
      rwa [e1]
  · by_cases e2 : y.1 = z.1
    · rw [if_neg e1] at h1
      rw [if_neg (fun hc : x.1 = z.1 => e1 (hc.trans e2.symm))]
      rwa [← e2]
    · rw [if_neg e1] at h1
      rw [if_neg e2] at h2
      by_cases e3 : x.1 = z.1
      · exfalso
        have hx := listLt_trans h1 h2
        rw [e3] at hx
        rw [listLt_irrefl z.1] at hx
        exact Bool.false_ne_true hx
      · rw [if_neg e3]
        exact listLt_trans h1 h2

/-- The tuple order on person keys is total. -/
theorem keyLe_total : ∀ x y : PersonKey, (keyLe x y || keyLe y x) = true := by
  intro x y
  unfold keyLe
  by_cases e : x.1 = y.1
  · rw [if_pos e, if_pos e.symm]
    rcases listLt_total x.2 y.2 with h | h | h
    · simp [h]
    · simp [h]
    · simp [h]
  · rw [if_neg e, if_neg (Ne.symm e)]
    rcases listLt_total x.1 y.1 with h | h | h
    · simp [h]
    · exact absurd h e
    · simp [h]

/-- The pair comparator is transitive. -/
theorem pairLe_trans {β : Type} (a b c : PersonKey × β)
    (h1 : pairLe a b = true) (h2 : pairLe b c = true) : pairLe a c = true :=
  keyLe_trans h1 h2

/-- The pair comparator is total. -/
theorem pairLe_total {β : Type} (a b : PersonKey × β) :
    (pairLe a b || pairLe b a) = true :=
  keyLe_total a.1 b.1

/-- A successful run of the collection loop produces one pair per present
key, in order, each carrying the dictionary's record for its key. -/
theorem mapM_keys {β : Type} (people : List (PersonKey × β)) :
    ∀ (ks : List PersonKey) (pairs : List (PersonKey × β)),
      (ks.mapM fun k => (dictGet people k).map fun v => (k, v)) = some pairs →
      pairs.map Prod.fst = ks ∧ ∀ p ∈ pairs, dictGet people p.1 = some p.2
  | [], pairs, h => by
    simp only [List.mapM_nil, Option.pure_def, Option.some.injEq] at h
    subst h
    simp
  | k :: ks, pairs, h => by
    rw [List.mapM_cons] at h
    rcases hk : dictGet people k with _ | v
    · rw [hk] at h
      simp at h
    · rw [hk] at h
      rcases hm : ks.mapM (fun k => (dictGet people k).map fun v => (k, v))
        with _ | rest
      · rw [hm] at h
        simp at h
      · rw [hm] at h
        simp at h
        obtain ⟨h1, h2⟩ := mapM_keys people ks rest hm
        subst h
        refine ⟨by simp [h1], ?_⟩
        intro p hp
        rcases List.mem_cons.mp hp with rfl | hp
        · exact hk
        · exact h2 p hp

/-- C8: a successful aggregation of the accepted posts' authors contributes
one `(key, record)` pair per author entry with a present matched key —
duplicates kept, keys in processing order, record the dictionary's value
for the key — and the returned sequence is the record values of those pairs
sorted by key in lexicographic order (last name, then first names); the
sorted pair list is a permutation of the collected pairs (no deduplication)
and is sorted under the key order, whatever the processing order of the
posts was; permuting the posts only permutes the collected keys. -/
theorem C8_aggregation {β : Type} (people : List (PersonKey × β))
    (posts : List (List AuthorEntry)) (pairs : List (PersonKey × β))
    (h : all_authors_unsorted people posts = some pairs) :
    pairs.map Prod.fst = posts.flatMap presentKeys ∧
    (∀ p ∈ pairs, dictGet people p.1 = some p.2) ∧
    List.Perm (pairs.mergeSort pairLe) pairs ∧
    (pairs.mergeSort pairLe).Pairwise (fun a b => pairLe a b = true) ∧
    get_all_authors people posts =
      some ((pairs.mergeSort pairLe).map Prod.snd) ∧
    (∀ posts2 : List (List AuthorEntry), List.Perm posts2 posts →
      List.Perm (posts2.flatMap presentKeys) (posts.flatMap presentKeys)) := by
  obtain ⟨h1, h2⟩ := mapM_keys people _ pairs h
  refine ⟨h1, h2, List.mergeSort_perm pairs pairLe, ?_, ?_, ?_⟩
  · exact @List.sorted_mergeSort _ pairLe pairLe_trans pairLe_total pairs
  · simp [get_all_authors, h]
  · exact fun posts2 hp => hp.flatMap_right presentKeys

/-- Witness for C8 at a concrete input: one person, one accepted post with
one matched author. -/
theorem C8_aggregation_witness :
    ([(("dave".toList, "a. bob c.".toList), 7)].map Prod.fst =
      [[("bob dave".toList,
          (some ("dave".toList, "a. bob c.".toList), 2))]].flatMap presentKeys) ∧
    (∀ p ∈ [(("dave".toList, "a. bob c.".toList), 7)],
      dictGet [(("dave".toList, "a. bob c.".toList), 7)] p.1 = some p.2) ∧
    List.Perm ([(("dave".toList, "a. bob c.".toList), 7)].mergeSort pairLe)
      [(("dave".toList, "a. bob c.".toList), 7)] ∧
    ([(("dave".toList, "a. bob c.".toList), 7)].mergeSort pairLe).Pairwise
      (fun a b => pairLe a b = true) ∧
    get_all_authors [(("dave".toList, "a. bob c.".toList), 7)]
      [[("bob dave".toList,
          (some ("dave".toList, "a. bob c.".toList), 2))]] =
      some (([(("dave".toList, "a. bob c.".toList), 7)].mergeSort pairLe).map
        Prod.snd) ∧
    (∀ posts2 : List (List AuthorEntry),
      List.Perm posts2 [[("bob dave".toList,
          (some ("dave".toList, "a. bob c.".toList), 2))]] →
      List.Perm (posts2.flatMap presentKeys)
        ([[("bob dave".toList,
            (some ("dave".toList, "a. bob c.".toList), 2))]].flatMap
          presentKeys)) :=
  C8_aggregation [(("dave".toList, "a. bob c.".toList), 7)]
    [[("bob dave".toList, (some ("dave".toList, "a. bob c.".toList), 2))]]
    [(("dave".toList, "a. bob c.".toList), 7)] (by decide)

/-- C5 counterexample: normalization is not idempotent and is not
diacritic-insensitive.  `normalize_caseless` decomposes `'É'` into `'e'`
followed by the combining acute accent — the accent survives because the
non-word-character substitution runs before the NFKD decomposition — so a
second application turns the accent into a space, and the result differs
from `normalize_caseless "e. long"`. -/
theorem C5_counterexample :
    normalize_caseless (normalize_caseless "É. Long".toList) ≠
      normalize_caseless "É. Long".toList ∧
    normalize_caseless "É. Long".toList ≠
      normalize_caseless "e. long".toList := by decide

/-- Characterwise facts about the folding pipeline over the 128 ASCII code
points: casefolding is plain lowercasing, NFKD is the identity, and
lowercasing preserves being a word character or a space. -/
theorem ascii_char_facts : ∀ n : Nat, n < 128 →
    caseFoldChar (Char.ofNat n) = [lowerChar (Char.ofNat n)] ∧
    nfkdChar (lowerChar (Char.ofNat n)) = [lowerChar (Char.ofNat n)] ∧
    caseFoldChar (lowerChar (Char.ofNat n)) = [lowerChar (Char.ofNat n)] ∧
    ((isWordChar (Char.ofNat n) || decide (Char.ofNat n = ' ')) = true →
      (isWordChar (lowerChar (Char.ofNat n)) ||
        decide (lowerChar (Char.ofNat n) = ' ')) = true) := by decide

/-- `ascii_char_facts` transported to an arbitrary ASCII character. -/
theorem ascii_facts (c : Char) (h : c.toNat < 128) :
    caseFoldChar c = [lowerChar c] ∧
    nfkdChar (lowerChar c) = [lowerChar c] ∧
    caseFoldChar (lowerChar c) = [lowerChar c] ∧
    ((isWordChar c || decide (c = ' ')) = true →
      (isWordChar (lowerChar c) || decide (lowerChar c = ' ')) = true) := by
  have hh := ascii_char_facts c.toNat h
  rwa [Char.ofNat_toNat] at hh

/-- A flatMap by a pointwise singleton function is the corresponding map. -/
theorem flatMap_eq_map_of (l : List Char) (f : Char → List Char)
    (g : Char → Char) (h : ∀ c ∈ l, f c = [g c]) : l.flatMap f = l.map g := by
  induction l with
  | nil => rfl
  | cons c t ih =>
    simp only [List.flatMap_cons, List.map_cons, h c (by simp),
      List.cons_append, List.nil_append]
    rw [ih fun d hd => h d (by simp [hd])]

/-- A flatMap by a function that is a pointwise singleton identity leaves
the list unchanged. -/
theorem flatMap_eq_self_of (l : List Char) (f : Char → List Char)
    (h : ∀ c ∈ l, f c = [c]) : l.flatMap f = l := by
  induction l with
  | nil => rfl
  | cons c t ih =>
    simp only [List.flatMap_cons, h c (by simp), List.cons_append,
      List.nil_append]
    rw [ih fun d hd => h d (by simp [hd])]

/-- A map by a pointwise identity leaves the list unchanged. -/
theorem map_eq_self_of (l : List Char) (f : Char → Char)
    (h : ∀ c ∈ l, f c = c) : l.map f = l := by
  induction l with
  | nil => rfl
  | cons c t ih =>
    simp only [List.map_cons, h c (by simp)]
    rw [ih fun d hd => h d (by simp [hd])]

/-- Stripping only removes characters. -/
theorem pyStrip_subset {c : Char} {l : List Char} (h : c ∈ pyStrip l) :
    c ∈ l := by
  unfold pyStrip at h
  have h1 :=
    (List.rdropWhile_prefix isPySpace (l.dropWhile isPySpace)).sublist.subset h
  exact (List.dropWhile_suffix isPySpace).sublist.subset h1

/-- `pyStrip` is idempotent: a stripped string strips to itself. -/
theorem pyStrip_idem (s : List Char) : pyStrip (pyStrip s) = pyStrip s := by
  show (((s.dropWhile isPySpace).rdropWhile isPySpace).dropWhile
      isPySpace).rdropWhile isPySpace =
    (s.dropWhile isPySpace).rdropWhile isPySpace
  have hdr : ((s.dropWhile isPySpace).rdropWhile isPySpace).dropWhile
      isPySpace = (s.dropWhile isPySpace).rdropWhile isPySpace := by
    cases hr : (s.dropWhile isPySpace).rdropWhile isPySpace with
    | nil => simp
    | cons a t =>
      obtain ⟨tail2, hd⟩ :=
        List.rdropWhile_prefix isPySpace (s.dropWhile isPySpace)
      rw [hr] at hd
      have hne : s.dropWhile isPySpace ≠ [] := by
        rw [← hd]; simp
      have hna : isPySpace a = false := by
        have hh := List.head_dropWhile_not isPySpace s hne
        have h4 : (List.dropWhile isPySpace s).head? = some a := by
          rw [← hd]; rfl
        have h5 : some ((List.dropWhile isPySpace s).head hne) = some a := by
          rw [← h4, List.head?_eq_head]
        rw [← Option.some.inj h5]
        exact hh
      rw [List.dropWhile_cons]
      simp [hna]
  rw [hdr]
  exact List.rdropWhile_idempotent _ _

/-- Every character of `subNonWord`'s output is a word character or a
space. -/
theorem subNonWord_mem {c : Char} {x : List Char} (h : c ∈ subNonWord x) :
    (isWordChar c || decide (c = ' ')) = true := by
  obtain ⟨d, hd, rfl⟩ := List.mem_map.mp h
  by_cases hw : isWordChar d = true
  · simp [hw]
  · simp [hw]

/-- `subNonWord` keeps ASCII strings ASCII. -/
theorem subNonWord_ascii {x : List Char} (hx : ∀ c ∈ x, c.toNat < 128) :
    ∀ c ∈ subNonWord x, c.toNat < 128 := by
  intro c hc
  obtain ⟨d, hd, rfl⟩ := List.mem_map.mp hc
  by_cases hw : isWordChar d = true
  · simpa [hw] using hx d hd
  · simp [hw]

/-- On ASCII input the folding pipeline is just lowercasing: normalization
is substitution, lowercasing, and stripping. -/
theorem normalize_ascii (x : List Char) (hx : ∀ c ∈ x, c.toNat < 128) :
    normalize_caseless x = pyStrip ((subNonWord x).map lowerChar) := by
  unfold normalize_caseless
  rw [flatMap_eq_map_of (subNonWord x) caseFoldChar lowerChar
    (fun c hc => (ascii_facts c (subNonWord_ascii hx c hc)).1)]
  rw [flatMap_eq_self_of ((subNonWord x).map lowerChar) nfkdChar ?_]
  intro c hc
  obtain ⟨d, hd, rfl⟩ := List.mem_map.mp hc
  exact (ascii_facts d (subNonWord_ascii hx d hd)).2.1

/-- A stripped string of folded word-or-space characters is a fixed point
of normalization. -/
theorem normalize_fixed (r : List Char)
    (hg : ∀ c ∈ r, (isWordChar c || decide (c = ' ')) = true ∧
      caseFoldChar c = [c] ∧ nfkdChar c = [c])
    (hs : pyStrip r = r) : normalize_caseless r = r := by
  unfold normalize_caseless
  have h1 : subNonWord r = r := by
    apply map_eq_self_of
    intro c hc
    have hws := (hg c hc).1
    simp only [Bool.or_eq_true] at hws
    rcases hws with hw | hsp
    · simp [hw]
    · have hc2 : c = ' ' := of_decide_eq_true hsp
      subst hc2
      simp
  rw [h1, flatMap_eq_self_of r caseFoldChar (fun c hc => (hg c hc).2.1),
    flatMap_eq_self_of r nfkdChar (fun c hc => (hg c hc).2.2), hs]

/-- C5 (amended): `normalize_caseless` is idempotent on ASCII input, but
not in general: on accented input it decomposes the letter and keeps the
combining mark, so `"É. Long"` does not normalize equal to `"e. long"` —
accented Latin letters are not folded to their unaccented counterparts. -/
theorem C5_normalize_amended :
    (∀ x : List Char, (∀ c ∈ x, c.toNat < 128) →
      normalize_caseless (normalize_caseless x) = normalize_caseless x) ∧
    normalize_caseless "É. Long".toList =
      ['e', '́', ' ', ' ', 'l', 'o', 'n', 'g'] ∧
    normalize_caseless "É. Long".toList ≠
      normalize_caseless "e. long".toList := by
  refine ⟨fun x hx => ?_, by decide, by decide⟩
  rw [normalize_ascii x hx]
  apply normalize_fixed
  · intro c hc
    have hcr := pyStrip_subset hc
    obtain ⟨d, hd, rfl⟩ := List.mem_map.mp hcr
    have hf := ascii_facts d (subNonWord_ascii hx d hd)
    exact ⟨hf.2.2.2 (subNonWord_mem hd), hf.2.2.1, hf.2.1⟩
  · exact pyStrip_idem _

/-- Witness for C5 (amended) at a concrete ASCII input. -/
theorem C5_normalize_amended_witness :
    normalize_caseless (normalize_caseless "J. Long".toList) =
      normalize_caseless "J. Long".toList :=
  C5_normalize_amended.1 "J. Long".toList (by decide)

end Mailer
